import Mathlib

/-!
Verification of the temporal feature-engineering and projection pipeline of an
NBA fantasy-points repository.  The Python source is shallowly embedded:
pandas frames become lists of records, numeric columns become rationals,
dates become integers (days), and in-place frame mutation is modelled by an
explicit heap of tables.  Each definition mirrors one function of the source
(`src/features/featurizer.py`, `etl/calc_fp.py`, `scripts1/predict_today.py`).
-/

namespace NBA

/-! ## Rolling feature engine (featurizer.add_rolling_features)

`df.groupby("PLAYER_ID")[col].transform(lambda x: x.rolling(window=w,
min_periods=1).mean())`: within each player group, taken in original row
order, the value at group position `i` is the mean of the last at most `w`
values up to and including position `i`; `min_periods=1` makes the result a
number as soon as the window is non-empty.  The transform scatters the group
series back to the original row positions. -/

/-- Mean of a list of rationals; `none` on the empty list (pandas `NaN`). -/
def meanOpt (xs : List ℚ) : Option ℚ :=
  if xs = [] then none else some (xs.sum / xs.length)

/-- The last at most `n` elements of a list (a trailing window). -/
def lastN (n : Nat) (xs : List α) : List α := xs.drop (xs.length - n)

/-- `Series.rolling(window=w, min_periods=1).mean()` over one group series:
entry `i` is the mean of the trailing window of width at most `w` ending at
`i` inclusive. -/
def rollingMeanSeries (w : Nat) (xs : List ℚ) : List (Option ℚ) :=
  (List.range xs.length).map (fun i => meanOpt (lastN w (xs.take (i + 1))))

/-- The value column of the group of `g`, in original row order
(`df.groupby(pid)[col]` for group key `g`). -/
def groupVals (pid : α → Nat) (val : α → ℚ) (rows : List α) (g : Nat) : List ℚ :=
  (rows.filter (fun r => pid r == g)).map val

/-- Position of row `p` inside its group: how many rows of group `g` occur
strictly before position `p`. -/
def groupRank (pid : α → Nat) (rows : List α) (p : Nat) (g : Nat) : Nat :=
  ((rows.take p).filter (fun r => pid r == g)).length

/-- `groupby(pid)[col].transform(rolling(w, min_periods=1).mean())`: the output
is aligned with the original rows; row `p` receives entry `groupRank p` of the
rolling-mean series of its own group. -/
def rollingTransform (w : Nat) (pid : α → Nat) (val : α → ℚ) (rows : List α) :
    List (Option ℚ) :=
  (List.range rows.length).map (fun p =>
    match rows[p]? with
    | none => none
    | some r =>
        (rollingMeanSeries w (groupVals pid val rows (pid r))).getD
          (groupRank pid rows p (pid r)) none)

/-- One history row as consumed by `add_rolling_features`: entity id, game
date (days), and the numeric column being rolled. -/
structure RollRow where
  playerId : Nat
  gameDate : Int
  value : ℚ
deriving DecidableEq, Repr

/-- `featurizer.add_rolling_features(df, col)` for a single window `w`:
the rolling-mean column it assigns (`df[f"{col}_rolling{w}"]`). -/
def add_rolling_features (w : Nat) (rows : List RollRow) : List (Option ℚ) :=
  rollingTransform w (fun r => r.playerId) (fun r => r.value) rows

/-! ### Characterisation of the rolling transform -/

theorem take_succ_of_getElem (rows : List α) (p : Nat) (r : α)
    (h : rows[p]? = some r) : rows.take (p + 1) = rows.take p ++ [r] := by
  rw [List.take_succ, h]
  rfl

theorem filter_take_succ (q : α → Bool) (rows : List α) (p : Nat) (r : α)
    (h : rows[p]? = some r) (hq : q r = true) :
    (rows.take (p + 1)).filter q = (rows.take p).filter q ++ [r] := by
  rw [take_succ_of_getElem rows p r h, List.filter_append]
  simp [hq]

/-- The group values of the first `p+1` rows are exactly the first
`groupRank p + 1` entries of the whole group series. -/
theorem groupVals_take (pid : α → Nat) (val : α → ℚ) (rows : List α) (p : Nat)
    (r : α) (h : rows[p]? = some r) :
    groupVals pid val (rows.take (p + 1)) (pid r) =
      (groupVals pid val rows (pid r)).take (groupRank pid rows p (pid r) + 1) := by
  have hq : (fun x => pid x == pid r) r = true := by simp
  have hsplit : rows = rows.take (p + 1) ++ rows.drop (p + 1) :=
    (List.take_append_drop (p + 1) rows).symm
  have hfil : rows.filter (fun x => pid x == pid r) =
      (rows.take (p + 1)).filter (fun x => pid x == pid r) ++
      (rows.drop (p + 1)).filter (fun x => pid x == pid r) := by
    conv_lhs => rw [hsplit]
    rw [List.filter_append]
  have hlen : ((rows.take (p + 1)).filter (fun x => pid x == pid r)).length =
      groupRank pid rows p (pid r) + 1 := by
    rw [filter_take_succ _ rows p r h hq, List.length_append]
    rfl
  unfold groupVals
  rw [hfil, List.map_append, ← hlen]
  rw [← List.length_map ((rows.take (p + 1)).filter (fun x => pid x == pid r)) val]
  exact (List.take_left _ _).symm

/-- Row `p`'s rank in its own group is a valid index of the group series. -/
theorem groupRank_lt (pid : α → Nat) (val : α → ℚ) (rows : List α) (p : Nat)
    (r : α) (h : rows[p]? = some r) :
    groupRank pid rows p (pid r) < (groupVals pid val rows (pid r)).length := by
  have := groupVals_take pid val rows p r h
  have hlen : (groupVals pid val (rows.take (p + 1)) (pid r)).length =
      groupRank pid rows p (pid r) + 1 := by
    unfold groupVals
    rw [List.length_map]
    have hq : (fun x => pid x == pid r) r = true := by simp
    rw [filter_take_succ _ rows p r h hq, List.length_append]
    rfl
  rw [this] at hlen
  rw [List.length_take] at hlen
  omega

theorem rollingMeanSeries_getD (w : Nat) (xs : List ℚ) (i : Nat)
    (h : i < xs.length) :
    (rollingMeanSeries w xs).getD i none = meanOpt (lastN w (xs.take (i + 1))) := by
  unfold rollingMeanSeries
  rw [List.getD_eq_getElem?_getD, List.getElem?_map, List.getElem?_range h]
  rfl

/-- Key characterisation: the transform assigns to row `p` the mean of the
trailing window of its group computed **within the first `p+1` rows** of the
table, in original row order. -/
theorem rollingTransform_getElem (w : Nat) (pid : α → Nat) (val : α → ℚ)
    (rows : List α) (p : Nat) (r : α) (h : rows[p]? = some r) :
    (rollingTransform w pid val rows)[p]? =
      some (meanOpt (lastN w (groupVals pid val (rows.take (p + 1)) (pid r)))) := by
  have hp : p < rows.length := by
    have := List.getElem?_eq_some.mp h
    exact this.1
  unfold rollingTransform
  rw [List.getElem?_map, List.getElem?_range hp, Option.map_some']
  rw [h]
  have hrank := groupRank_lt pid val rows p r h
  show some ((rollingMeanSeries w (groupVals pid val rows (pid r))).getD
      (groupRank pid rows p (pid r)) none) = _
  rw [rollingMeanSeries_getD w _ _ hrank]
  rw [groupVals_take pid val rows p r h]

/-! ### The spec's claimed date-sorted rolling engine (for claim C2)

Modelled from the spec's words: partition by entity, sort each partition by
`game_date` ascending with a stable sort (ties by original row order), and
take the trailing window inside the sorted partition.  This is compared with
the code's `add_rolling_features`, which does not sort. -/

/-- Stable insertion step for sorting a partition by date ascending: the new
element is placed after every element whose date is less than or equal to its
own, so elements with equal dates keep their original relative order. -/
def stableInsertByDate (x : Nat × RollRow) :
    List (Nat × RollRow) → List (Nat × RollRow)
  | [] => [x]
  | y :: l =>
      if y.2.gameDate ≤ x.2.gameDate then y :: stableInsertByDate x l
      else x :: y :: l

/-- Stable sort of an indexed partition by `game_date` ascending. -/
def sortPartitionByDate (part : List (Nat × RollRow)) : List (Nat × RollRow) :=
  part.foldl (fun acc x => stableInsertByDate x acc) []

/-- The rolling value the spec prescribes for the row at original position
`p`: the trailing-window mean at the row's position inside its date-sorted
partition. -/
def specSortedRollingAt (w : Nat) (rows : List RollRow) (p : Nat) : Option ℚ :=
  match rows[p]? with
  | none => none
  | some r =>
      let part := rows.enum.filter (fun t => t.2.playerId == r.playerId)
      let sorted := sortPartitionByDate part
      let i := sorted.findIdx (fun t => t.1 == p)
      meanOpt (lastN w ((sorted.map (fun t => t.2.value)).take (i + 1)))

/-! ### Claim C1 (no-leakage) -/

/-- History with entity 1 whose later-dated game (date 5) appears **before**
its earlier-dated game (date 1) in row order. -/
def c1Tab : List RollRow := [⟨1, 5, 10⟩, ⟨1, 1, 0⟩]

/-- The same history with the record dated 5 mutated (value 10 → 20). -/
def c1TabMut : List RollRow := [⟨1, 5, 20⟩, ⟨1, 1, 0⟩]

/-- C1, counterexample: the two tables differ only in the value of entity 1's
record dated 5; the claim says the rolling value for the row dated 1 (< 5)
must therefore be unchanged, but the code's rolling value at that row changes
from 5 to 10, because the engine windows by row position, not by date. -/
theorem claim1_counterexample :
    c1Tab[1]?.map (fun r => r.gameDate) = some 1 ∧
    c1TabMut[1]?.map (fun r => r.gameDate) = some 1 ∧
    c1Tab[0]?.map (fun r => r.gameDate) = some 5 ∧
    (add_rolling_features 3 c1Tab)[1]? = some (some 5) ∧
    (add_rolling_features 3 c1TabMut)[1]? = some (some 10) ∧
    (add_rolling_features 3 c1Tab)[1]? ≠ (add_rolling_features 3 c1TabMut)[1]? := by
  have h1 : (add_rolling_features 3 c1Tab)[1]? = some (some 5) := by
    simp [add_rolling_features, rollingTransform, rollingMeanSeries, groupVals,
      groupRank, lastN, meanOpt, c1Tab, List.range_succ]
    norm_num
  have h2 : (add_rolling_features 3 c1TabMut)[1]? = some (some 10) := by
    simp [add_rolling_features, rollingTransform, rollingMeanSeries, groupVals,
      groupRank, lastN, meanOpt, c1TabMut, List.range_succ]
    norm_num
  refine ⟨rfl, rfl, rfl, h1, h2, ?_⟩
  rw [h1, h2]
  simp only [ne_eq, Option.some.injEq]
  norm_num

/-- C1, amended: the rolling value computed for the row at position `p`
depends only on the first `p + 1` rows of the history — two histories that
agree on those rows give the same value at `p`.  In particular appending
records after the row (whatever their dates) leaves previously computed
values unchanged; the spec's date-based form holds only when each entity's
rows appear in non-decreasing date order. -/
theorem claim1_amended (w : Nat) (rows1 rows2 : List RollRow) (p : Nat)
    (hp : p < rows1.length)
    (hpre : rows1.take (p + 1) = rows2.take (p + 1)) :
    (add_rolling_features w rows1)[p]? = (add_rolling_features w rows2)[p]? := by
  have h1 : rows1[p]? = some rows1[p] := List.getElem?_eq_getElem hp
  have h2 : rows2[p]? = some rows1[p] := by
    rw [← List.getElem?_take_of_succ (l := rows2) (n := p), ← hpre,
      List.getElem?_take_of_succ, h1]
  simp only [add_rolling_features]
  rw [rollingTransform_getElem w _ _ rows1 p _ h1,
    rollingTransform_getElem w _ _ rows2 p _ h2, hpre]

/-- C1, witness for the amended theorem: appending a third, later-dated game
for entity 1 does not change the rolling value already computed for the
second row. -/
theorem claim1_amended_witness :
    (add_rolling_features 3 [⟨1, 1, 2⟩, ⟨1, 2, 4⟩])[1]? =
      (add_rolling_features 3 [⟨1, 1, 2⟩, ⟨1, 2, 4⟩, ⟨1, 3, 100⟩])[1]? :=
  claim1_amended 3 [⟨1, 1, 2⟩, ⟨1, 2, 4⟩] [⟨1, 1, 2⟩, ⟨1, 2, 4⟩, ⟨1, 3, 100⟩] 1
    (by decide) (by decide)

/-! ### Claim C2 (rolling engine algorithm) -/

/-- History for the C2 counterexample: entity 1's rows are not in date
order. -/
def c2Tab : List RollRow := [⟨1, 5, 10⟩, ⟨1, 1, 0⟩]

/-- C2, counterexample: the claim prescribes sorting each partition by
`game_date` before windowing.  On a table whose partition is not date-sorted
the code's value for the first row (dated 5) is `10` — the window sees only
rows at earlier positions — while the spec's date-sorted engine yields
`(0 + 10)/2 = 5`.  The code never sorts. -/
theorem claim2_counterexample :
    (add_rolling_features 3 c2Tab)[0]? = some (some 10) ∧
    specSortedRollingAt 3 c2Tab 0 = some 5 ∧
    (add_rolling_features 3 c2Tab)[0]? ≠ some (specSortedRollingAt 3 c2Tab 0) := by
  have h1 : (add_rolling_features 3 c2Tab)[0]? = some (some 10) := by
    simp [add_rolling_features, rollingTransform, rollingMeanSeries, groupVals,
      groupRank, lastN, meanOpt, c2Tab, List.range_succ]
  have h2 : specSortedRollingAt 3 c2Tab 0 = some 5 := by
    simp [specSortedRollingAt, sortPartitionByDate, stableInsertByDate, c2Tab,
      List.enum, List.enumFrom, List.findIdx, List.findIdx.go, lastN, meanOpt]
    norm_num
  refine ⟨h1, h2, ?_⟩
  rw [h1, h2]
  simp only [ne_eq, Option.some.injEq]
  norm_num

/-- C2, amended: the engine partitions rows by entity id but keeps each
partition in **original row order** (it never sorts by `game_date`); the row
whose partition position is `i` receives the mean of the value column over
partition positions `[max (0, i-w+1), i]` inclusive, and with `w ≥ 1`
(`min_periods = 1`) the result is never missing. -/
theorem claim2_amended (w : Nat) (rows : List RollRow) (p : Nat) (r : RollRow)
    (hw : 1 ≤ w) (h : rows[p]? = some r) :
    (add_rolling_features w rows)[p]? =
      some (meanOpt
        (((groupVals (fun x => x.playerId) (fun x => x.value) rows r.playerId).take
            (groupRank (fun x => x.playerId) rows p r.playerId + 1)).drop
          (groupRank (fun x => x.playerId) rows p r.playerId + 1 - w))) ∧
    ∃ q : ℚ, (add_rolling_features w rows)[p]? = some (some q) := by
  have hchar := rollingTransform_getElem w (fun x => x.playerId)
    (fun x => x.value) rows p r h
  have hrank := groupRank_lt (fun x => x.playerId) (fun x => x.value) rows p r h
  have htake := groupVals_take (fun x => x.playerId) (fun x => x.value) rows p r h
  set g := groupVals (fun x => x.playerId) (fun x => x.value) rows r.playerId with hg
  set i := groupRank (fun x => x.playerId) rows p r.playerId with hi
  have hlen : (g.take (i + 1)).length = i + 1 := by
    rw [List.length_take]
    omega
  have hwin : lastN w (groupVals (fun x => x.playerId) (fun x => x.value)
      (rows.take (p + 1)) r.playerId) = (g.take (i + 1)).drop (i + 1 - w) := by
    rw [htake, lastN, hlen]
  constructor
  · simp only [add_rolling_features]
    rw [hchar, hwin]
  · refine ⟨((g.take (i + 1)).drop (i + 1 - w)).sum /
      ((g.take (i + 1)).drop (i + 1 - w)).length, ?_⟩
    simp only [add_rolling_features]
    rw [hchar, hwin]
    have hne : (g.take (i + 1)).drop (i + 1 - w) ≠ [] := by
      have hdl : ((g.take (i + 1)).drop (i + 1 - w)).length = (i + 1) - (i + 1 - w) := by
        rw [List.length_drop, hlen]
      intro hnil
      rw [hnil] at hdl
      simp at hdl
      omega
    simp only [meanOpt, if_neg hne]

/-- The one-row history used to witness the amended claim C2. -/
def c2WitTab : List RollRow := [⟨7, 3, 6⟩]

/-- C2, witness for the amended theorem: a one-row history for entity 7. -/
theorem claim2_amended_witness :
    (add_rolling_features 3 c2WitTab)[0]? =
      some (meanOpt
        (((groupVals (fun x => x.playerId) (fun x => x.value) c2WitTab 7).take
            (groupRank (fun x => x.playerId) c2WitTab 0 7 + 1)).drop
          (groupRank (fun x => x.playerId) c2WitTab 0 7 + 1 - 3))) ∧
    ∃ q : ℚ, (add_rolling_features 3 c2WitTab)[0]? = some (some q) :=
  claim2_amended 3 c2WitTab 0 ⟨7, 3, 6⟩ (by decide) (by decide)

/-! ## Score calculator (etl/calc_fp.calculate_fantasy_points)

All six counting statistics are integers in the source data and the weights
are dyadic, so float arithmetic is exact and `ℚ` is a faithful model. -/

/-- One game record's counting statistics (columns PTS, REB, AST, STL, BLK,
TOV). -/
structure StatLine where
  pts : ℚ
  reb : ℚ
  ast : ℚ
  stl : ℚ
  blk : ℚ
  tov : ℚ
deriving DecidableEq, Repr

/-- `calculate_fantasy_points(df)` applied to one record. -/
def calculate_fantasy_points (s : StatLine) : ℚ :=
  s.pts * 1.0 + s.reb * 1.25 + s.ast * 1.5 + s.stl * 2.0 + s.blk * 3.0 +
    s.tov * (-1.0)

/-- C3: the score calculator is exactly the fixed linear weighting
points ×1, rebounds ×5/4, assists ×3/2, steals ×2, blocks ×3,
turnovers ×(−1), with no other dependence; on
`{points 10, rebounds 4, assists 2, steals 1, blocks 0, turnovers 2}` it
returns 18. -/
theorem claim3_score :
    (∀ s : StatLine, calculate_fantasy_points s =
      s.pts + (5 / 4) * s.reb + (3 / 2) * s.ast + 2 * s.stl + 3 * s.blk - s.tov) ∧
    calculate_fantasy_points ⟨10, 4, 2, 1, 0, 2⟩ = 18 := by
  constructor
  · intro s
    unfold calculate_fantasy_points
    norm_num
    ring
  · unfold calculate_fantasy_points
    norm_num

/-! ## Home/away flag (featurizer.add_home_away_flag)

`df["MATCHUP"].str.contains(r"vs\.")` is a regular-expression search whose
pattern matches the literal three characters `vs.` anywhere in the string. -/

/-- Does the pattern occur at the very start of the string? -/
def startsWithSeq : List Char → List Char → Bool
  | [], _ => true
  | _ :: _, [] => false
  | a :: pa, b :: sb => a == b && startsWithSeq pa sb

/-- Does the pattern occur anywhere in the string?  (The semantics of
`Series.str.contains` with a literal-only regular expression.) -/
def containsSeq (pat : List Char) : List Char → Bool
  | [] => pat.isEmpty
  | c :: rest => startsWithSeq pat (c :: rest) || containsSeq pat rest

/-- The home-marker token of the MATCHUP column. -/
def homeMarker : List Char := ['v', 's', '.']

/-- `add_home_away_flag`'s per-row indicator: 1 iff the matchup descriptor
contains `vs.`. -/
def is_home (matchup : List Char) : Bool := containsSeq homeMarker matchup

/-- `featurizer.add_home_away_flag(df)`: the IS_HOME column (1 = home,
0 = away). -/
def add_home_away_flag (matchups : List (List Char)) : List Nat :=
  matchups.map (fun m => if is_home m then 1 else 0)

theorem startsWithSeq_iff (pat s : List Char) :
    startsWithSeq pat s = true ↔ ∃ t, s = pat ++ t := by
  induction pat generalizing s with
  | nil => simp [startsWithSeq]
  | cons a pa ih =>
    cases s with
    | nil =>
        simp [startsWithSeq]
    | cons b sb =>
        simp only [startsWithSeq, Bool.and_eq_true, beq_iff_eq, ih,
          List.cons_append, List.cons.injEq]
        constructor
        · rintro ⟨rfl, t, rfl⟩
          exact ⟨t, rfl, rfl⟩
        · rintro ⟨t, rfl, rfl⟩
          exact ⟨rfl, t, rfl⟩

theorem containsSeq_iff (pat s : List Char) :
    containsSeq pat s = true ↔ ∃ pre post, s = pre ++ pat ++ post := by
  induction s with
  | nil =>
    simp only [containsSeq, List.isEmpty_iff]
    constructor
    · rintro rfl
      exact ⟨[], [], rfl⟩
    · rintro ⟨pre, post, h⟩
      rcases List.append_eq_nil.mp h.symm with ⟨h1, h2⟩
      exact (List.append_eq_nil.mp h1).2
  | cons c rest ih =>
    simp only [containsSeq, Bool.or_eq_true, startsWithSeq_iff, ih]
    constructor
    · rintro (⟨t, ht⟩ | ⟨pre, post, hp⟩)
      · exact ⟨[], t, by simp [ht]⟩
      · exact ⟨c :: pre, post, by simp [hp]⟩
    · rintro ⟨pre, post, hp⟩
      cases pre with
      | nil =>
          left
          exact ⟨post, by simpa using hp⟩
      | cons x pre =>
          right
          refine ⟨pre, post, ?_⟩
          have hinj : c = x ∧ rest = pre ++ pat ++ post :=
            (List.cons.injEq c rest x (pre ++ pat ++ post)).mp (by simpa using hp)
          exact hinj.2

/-- C5: the home/away indicator is true iff the matchup descriptor contains
the home-marker token `vs.` (case-sensitively), and in particular it is true
for `BOS vs. NYK` and false for `BOS @ NYK`. -/
theorem claim5_is_home :
    (∀ s : List Char, is_home s = true ↔ ∃ pre post, s = pre ++ homeMarker ++ post) ∧
    is_home "BOS vs. NYK".toList = true ∧
    is_home "BOS @ NYK".toList = false := by
  refine ⟨fun s => containsSeq_iff homeMarker s, ?_, ?_⟩ <;> decide

/-! ## Prediction pipeline (scripts1/predict_today.py)

`engineer_features` builds the serving-time feature frame; `make_predictions`
invokes the pickled model on the feature matrix and sorts the result.  The
model is an external artifact (a pickle), so scoring is a parameter
`predict`; it consumes the whole feature batch at once, as
`model.predict(X_features)` does, and may fail (sklearn raises on an empty
batch). -/

/-- One candidate row of the serving-time feature frame (one player), with
the numeric feature vector that remains after dropping PLAYER_ID. -/
structure CandRow where
  playerId : Nat
  name : List Char
  feats : List ℚ
deriving DecidableEq, Repr

/-- One output row of `make_predictions` (PLAYER_ID, PLAYER_NAME, PRED_FP). -/
structure PredRow where
  playerId : Nat
  name : List Char
  predFp : ℚ
deriving DecidableEq, Repr

/-! ### Serving-time IS_HOME flags (claim C10)

`np.random.seed(42); pred_df['IS_HOME'] = np.random.choice([0, 1],
size=len(pred_df))`.  The NumPy generator is deterministic: after seeding
with `s`, draw `i` is a fixed function of `(s, i)` — modelled by an arbitrary
but fixed bit stream `randBit`. -/

/-- `np.random.choice([0,1], size=n)` after `np.random.seed(seed)`. -/
def np_random_choice (randBit : Nat → Nat → Bool) (seed n : Nat) : List Bool :=
  (List.range n).map (randBit seed)

/-- The IS_HOME column `engineer_features` assigns to the candidate frame:
seed 42, one positional draw per candidate row. -/
def engineer_features_is_home (randBit : Nat → Nat → Bool)
    (cand : List CandRow) : List Bool :=
  np_random_choice randBit 42 cand.length

/-- C10: the serving-time IS_HOME flags are a function of the candidate
count alone — two candidate tables of equal length receive identical flag
vectors no matter how their matchups or any other fields differ (and a rerun
on the same table trivially reproduces the same flags, the stream being a
fixed function of the seed). -/
theorem claim10_is_home_noninterference (randBit : Nat → Nat → Bool)
    (cand1 cand2 : List CandRow) (h : cand1.length = cand2.length) :
    engineer_features_is_home randBit cand1 =
      engineer_features_is_home randBit cand2 := by
  unfold engineer_features_is_home np_random_choice
  rw [h]

/-- C10, witness: two one-row candidate tables for different players with
different features get the same flag vector. -/
theorem claim10_witness :
    engineer_features_is_home (fun _ i => i % 2 == 0) [⟨1, ['a'], [3]⟩] =
      engineer_features_is_home (fun _ i => i % 2 == 0) [⟨2, ['b'], [7]⟩] :=
  claim10_is_home_noninterference (fun _ i => i % 2 == 0)
    [⟨1, ['a'], [3]⟩] [⟨2, ['b'], [7]⟩] (by decide)

/-! ### make_predictions (claims C6 and C7)

```
predictions = model.predict(X_features)
results = pd.DataFrame({...})
results = results.sort_values('PRED_FP', ascending=False)
```
`sort_values` is used with the default `kind='quicksort'`, which pandas
documents as **not stable**; the code therefore guarantees that the output is
a permutation of the assembled rows sorted descending by PRED_FP, and nothing
about the relative order of equal scores.  `make_predictions` is accordingly
embedded as a relation between the input and the admissible outputs. -/

/-- The rows of the `results` frame before sorting: candidate identity joined
with the model's prediction, in candidate (selection) order. -/
def assembleRows (cand : List CandRow) (preds : List ℚ) : List PredRow :=
  (cand.zip preds).map (fun t => ⟨t.1.playerId, t.1.name, t.2⟩)

/-- Sorted by PRED_FP descending. -/
def sortedByScoreDesc (l : List PredRow) : Prop :=
  l.Pairwise (fun a b => b.predFp ≤ a.predFp)

/-- `make_predictions(model, X_pred, player_data)` as a relation: the model
is applied to the full feature batch (there is no emptiness check); an
exception propagates; otherwise the output is some descending-sorted
permutation of the assembled rows. -/
def make_predictions (predict : List (List ℚ) → Except (List Char) (List ℚ))
    (cand : List CandRow) (out : Except (List Char) (List PredRow)) : Prop :=
  match predict (cand.map (fun r => r.feats)) with
  | .error e => out = .error e
  | .ok preds =>
      ∃ res, out = .ok res ∧ res.Perm (assembleRows cand preds) ∧
        sortedByScoreDesc res

/-! ### Claim C6 (output ordering) -/

/-- A model returning the same score for every row (ties everywhere). -/
def predictConstTen : List (List ℚ) → Except (List Char) (List ℚ) :=
  fun xs => .ok (xs.map (fun _ => (10 : ℚ)))

/-- Two candidates selected in the order: player 1, then player 2. -/
def c6Cands : List CandRow := [⟨1, ['a'], [1]⟩, ⟨2, ['b'], [2]⟩]

/-- C6, counterexample: with equal predicted scores, the rows assembled in
selection order are (player 1, player 2), yet the output placing player 2
first is an admissible result of `make_predictions` — pandas' default
`quicksort` is not stable, so ties are **not** guaranteed to keep original
selection order, contradicting the claim. -/
theorem claim6_counterexample :
    make_predictions predictConstTen c6Cands
      (.ok [⟨2, ['b'], 10⟩, ⟨1, ['a'], 10⟩]) ∧
    predictConstTen (c6Cands.map (fun r => r.feats)) = .ok [10, 10] ∧
    assembleRows c6Cands [10, 10] = [⟨1, ['a'], 10⟩, ⟨2, ['b'], 10⟩] := by
  refine ⟨?_, rfl, rfl⟩
  · show make_predictions _ _ _
    unfold make_predictions predictConstTen
    refine ⟨[⟨2, ['b'], 10⟩, ⟨1, ['a'], 10⟩], rfl, ?_, ?_⟩
    · show List.Perm _ (assembleRows c6Cands [10, 10])
      have : assembleRows c6Cands [10, 10] = [⟨1, ['a'], 10⟩, ⟨2, ['b'], 10⟩] := rfl
      rw [this]
      exact List.Perm.swap _ _ _
    · unfold sortedByScoreDesc
      simp [List.pairwise_cons]

/-- C6, amended: every admissible output of `make_predictions` is sorted by
PRED_FP descending (in particular no later row exceeds the first row); the
relative order of rows with equal PRED_FP is unspecified because the sort is
pandas' default unstable quicksort. -/
theorem claim6_amended (predict : List (List ℚ) → Except (List Char) (List ℚ))
    (cand : List CandRow) (res : List PredRow)
    (h : make_predictions predict cand (.ok res)) :
    sortedByScoreDesc res ∧
      ∀ a l, res = a :: l → ∀ x ∈ l, x.predFp ≤ a.predFp := by
  unfold make_predictions at h
  rcases hp : predict (cand.map (fun r => r.feats)) with e | preds
  · rw [hp] at h
    exact absurd h (by simp)
  · rw [hp] at h
    rcases h with ⟨res1, hres, _hperm, hsorted⟩
    have hr : res1 = res := by
      injection hres with h1
      exact h1.symm
    subst hr
    refine ⟨hsorted, ?_⟩
    rintro a l rfl x hx
    exact (List.pairwise_cons.mp hsorted).1 x hx

/-- C6, witness for the amended theorem: a concrete admissible output for
the two-candidate slate is descending-sorted. -/
theorem claim6_witness :
    sortedByScoreDesc [⟨1, ['a'], 10⟩, ⟨2, ['b'], 10⟩] ∧
      ∀ a l, ([⟨1, ['a'], 10⟩, ⟨2, ['b'], 10⟩] : List PredRow) = a :: l →
        ∀ x ∈ l, x.predFp ≤ a.predFp :=
  claim6_amended predictConstTen c6Cands [⟨1, ['a'], 10⟩, ⟨2, ['b'], 10⟩]
    (by
      unfold make_predictions predictConstTen
      exact ⟨[⟨1, ['a'], 10⟩, ⟨2, ['b'], 10⟩], rfl, List.Perm.refl _,
        by unfold sortedByScoreDesc; simp [List.pairwise_cons]⟩)

/-! ### Claim C7 (empty-slate handling) -/

/-- A scoring function that succeeds on every batch, the empty one
included. -/
def predictSucceeds : List (List ℚ) → Except (List Char) (List ℚ) :=
  fun xs => .ok (xs.map (fun _ => (0 : ℚ)))

/-- A scoring function that fails on the empty batch (sklearn's actual
behaviour) and succeeds otherwise. -/
def predictFailsEmpty : List (List ℚ) → Except (List Char) (List ℚ) :=
  fun xs => if xs.isEmpty then .error ['n', 'o'] else .ok (xs.map (fun _ => (0 : ℚ)))

/-- C7, counterexample: on a slate of zero candidates `make_predictions`
still feeds the empty batch to the scoring function — its outcome is whatever
the scoring function returns there (so the scoring function **is** invoked),
and when scoring succeeds the pipeline returns a plain success with zero
rows, with no empty-result flag.  Both halves of the claim fail. -/
theorem claim7_counterexample :
    make_predictions predictSucceeds [] (.ok []) ∧
    make_predictions predictFailsEmpty [] (.error ['n', 'o']) ∧
    ¬ make_predictions predictFailsEmpty [] (.ok []) := by
  refine ⟨?_, ?_, ?_⟩
  · unfold make_predictions predictSucceeds
    exact ⟨[], rfl, List.Perm.refl _, List.Pairwise.nil⟩
  · unfold make_predictions predictFailsEmpty
    rfl
  · unfold make_predictions predictFailsEmpty
    simp

/-- C7, amended: `make_predictions` performs no empty-slate check — on zero
candidates its outcome is exactly determined by the scoring function's result
on the empty batch: a scoring error propagates unchanged, and a scoring
success yields an ordinary success carrying zero rows (not flagged as
empty). -/
theorem claim7_amended (predict : List (List ℚ) → Except (List Char) (List ℚ))
    (out : Except (List Char) (List PredRow)) :
    make_predictions predict [] out ↔
      ((∃ e, predict [] = .error e ∧ out = .error e) ∨
       (∃ ps, predict [] = .ok ps ∧ out = .ok [])) := by
  unfold make_predictions
  have hmap : (List.map (fun r : CandRow => r.feats) ([] : List CandRow)) = [] := rfl
  rw [hmap]
  rcases hp : predict [] with e | ps
  · show (out = Except.error e) ↔ _
    constructor
    · intro h
      exact Or.inl ⟨e, rfl, h⟩
    · rintro (⟨e1, he, ho⟩ | ⟨ps, hps, _⟩)
      · injection he with h1
        rw [ho, h1]
      · exact absurd hps (by simp)
  · show (∃ res, out = Except.ok res ∧ res.Perm (assembleRows [] ps) ∧
        sortedByScoreDesc res) ↔ _
    have hasm : assembleRows [] ps = [] := rfl
    constructor
    · rintro ⟨res, hout, hperm, _⟩
      rw [hasm] at hperm
      have : res = [] := List.perm_nil.mp hperm
      subst this
      exact Or.inr ⟨ps, rfl, hout⟩
    · rintro (⟨e1, he, _⟩ | ⟨ps1, _, ho⟩)
      · exact absurd he (by simp)
      · exact ⟨[], ho, by rw [hasm], List.Pairwise.nil⟩

/-! ## Days rest (featurizer.add_days_rest)

```
df = df.sort_values(["PLAYER_ID", "GAME_DATE"])
last = df.groupby("PLAYER_ID")["GAME_DATE"].shift(1)
df["DAYS_REST"] = (df["GAME_DATE"] - last).dt.days.fillna(0).astype(int)
```
The frame is sorted by the (player, date) key; within each player group the
previous row's date is subtracted; a missing previous row gives `NaN`,
filled with 0.  The sort is embedded as an insertion sort by the same key —
under the data-model invariant that a player's dates are distinct the sorted
order of the date column within each group is unique, so the choice of
sorting algorithm does not affect the assigned values. -/

/-- One row as consumed by `add_days_rest`. -/
structure DRow where
  playerId : Nat
  gameDate : Int
deriving DecidableEq, Repr

/-- Insertion step of an insertion sort by the boolean key `le`. -/
def insertLe (le : α → α → Bool) (x : α) : List α → List α
  | [] => [x]
  | y :: l => if le x y then x :: y :: l else y :: insertLe le x l

/-- Insertion sort by the boolean key `le` (models `sort_values`). -/
def sortLe (le : α → α → Bool) : List α → List α
  | [] => []
  | x :: l => insertLe le x (sortLe le l)

/-- The `sort_values(["PLAYER_ID", "GAME_DATE"])` key. -/
def dr_le (a b : DRow) : Bool :=
  decide (a.playerId < b.playerId) ||
    (a.playerId == b.playerId && decide (a.gameDate ≤ b.gameDate))

/-- `groupby("PLAYER_ID")["GAME_DATE"].shift(1)` at one row `r` of the sorted
frame, `seen` being the rows before it: the date of the last earlier row of
`r`'s group, if any. -/
def shiftDateOf (pid : α → Nat) (date : α → Int) (seen : List α) (r : α) :
    Option Int :=
  ((seen.filter (fun q => pid q == pid r)).map date).getLast?

/-- The raw `(GAME_DATE - last).dt.days` column over the sorted frame
(before `fillna`): `none` is pandas `NaN`. -/
def drAssignRaw (pid : α → Nat) (date : α → Int) :
    List α → List α → List (α × Option Int)
  | _, [] => []
  | seen, r :: rest =>
      (r, (shiftDateOf pid date seen r).map (fun d => date r - d)) ::
        drAssignRaw pid date (seen ++ [r]) rest

/-- The final DAYS_REST column (after `.fillna(0).astype(int)`). -/
def drAssign (pid : α → Nat) (date : α → Int) :
    List α → List α → List (α × Int)
  | _, [] => []
  | seen, r :: rest =>
      (r, ((shiftDateOf pid date seen r).map (fun d => date r - d)).getD 0) ::
        drAssign pid date (seen ++ [r]) rest

/-- `featurizer.add_days_rest(df)`: the sorted frame with its DAYS_REST
column. -/
def add_days_rest (rows : List DRow) : List (DRow × Int) :=
  drAssign (fun r => r.playerId) (fun r => r.gameDate) [] (sortLe dr_le rows)

/-- The same pipeline, stopped before `fillna(0)`. -/
def add_days_rest_raw (rows : List DRow) : List (DRow × Option Int) :=
  drAssignRaw (fun r => r.playerId) (fun r => r.gameDate) [] (sortLe dr_le rows)

/-! ### Sorting lemmas -/

theorem mem_insertLe (le : α → α → Bool) (x a : α) (l : List α) :
    a ∈ insertLe le x l ↔ a = x ∨ a ∈ l := by
  induction l with
  | nil => simp [insertLe]
  | cons y l ih =>
    unfold insertLe
    by_cases h : le x y = true
    · simp [h]
    · simp only [Bool.not_eq_true] at h
      simp only [h, Bool.false_eq_true, if_false, List.mem_cons, ih]
      tauto

theorem insertLe_perm (le : α → α → Bool) (x : α) (l : List α) :
    (insertLe le x l).Perm (x :: l) := by
  induction l with
  | nil => exact List.Perm.refl _
  | cons y l ih =>
    unfold insertLe
    by_cases h : le x y = true
    · simp [h]
    · simp only [Bool.not_eq_true] at h
      simp only [h, Bool.false_eq_true, if_false]
      exact (ih.cons y).trans (List.Perm.swap x y l)

theorem sortLe_perm (le : α → α → Bool) (l : List α) :
    (sortLe le l).Perm l := by
  induction l with
  | nil => exact List.Perm.refl _
  | cons x l ih =>
    exact (insertLe_perm le x (sortLe le l)).trans (ih.cons x)

theorem insertLe_pairwise (le : α → α → Bool)
    (htot : ∀ a b, le a b = true ∨ le b a = true)
    (htrans : ∀ a b c, le a b = true → le b c = true → le a c = true)
    (x : α) (l : List α) (hl : l.Pairwise (fun a b => le a b = true)) :
    (insertLe le x l).Pairwise (fun a b => le a b = true) := by
  induction l with
  | nil => simp [insertLe]
  | cons y l ih =>
    rcases List.pairwise_cons.mp hl with ⟨hy, hl2⟩
    unfold insertLe
    by_cases h : le x y = true
    · simp only [h, if_true]
      refine List.pairwise_cons.mpr ⟨?_, hl⟩
      intro b hb
      rcases List.mem_cons.mp hb with rfl | hb2
      · exact h
      · exact htrans x y b h (hy b hb2)
    · simp only [Bool.not_eq_true] at h
      simp only [h, Bool.false_eq_true, if_false]
      refine List.pairwise_cons.mpr ⟨?_, ih hl2⟩
      intro b hb
      rcases (mem_insertLe le x b l).mp hb with rfl | hb2
      · rcases htot b y with hby | hyb
        · exact absurd hby (by simp [h])
        · exact hyb
      · exact hy b hb2

theorem sortLe_pairwise (le : α → α → Bool)
    (htot : ∀ a b, le a b = true ∨ le b a = true)
    (htrans : ∀ a b c, le a b = true → le b c = true → le a c = true)
    (l : List α) : (sortLe le l).Pairwise (fun a b => le a b = true) := by
  induction l with
  | nil => simp [sortLe]
  | cons x l ih => exact insertLe_pairwise le htot htrans x (sortLe le l) ih

theorem dr_le_total (a b : DRow) : dr_le a b = true ∨ dr_le b a = true := by
  simp only [dr_le, Bool.or_eq_true, Bool.and_eq_true, decide_eq_true_eq,
    beq_iff_eq]
  omega

theorem dr_le_trans (a b c : DRow) (h1 : dr_le a b = true)
    (h2 : dr_le b c = true) : dr_le a c = true := by
  simp only [dr_le, Bool.or_eq_true, Bool.and_eq_true, decide_eq_true_eq,
    beq_iff_eq] at h1 h2 ⊢
  omega

/-! ### The last element of a date-sorted list is its maximum -/

theorem getLast?_mem_of_eq_some (l : List Int) (d : Int)
    (h : l.getLast? = some d) : d ∈ l := by
  induction l with
  | nil => simp at h
  | cons a l ih =>
    cases l with
    | nil =>
        simp at h
        simp [h]
    | cons b l2 =>
        rw [List.getLast?_cons_cons] at h
        exact List.mem_cons_of_mem a (ih h)

theorem le_getLast?_of_pairwise (l : List Int) (d : Int)
    (hp : l.Pairwise (fun a b => a ≤ b)) (h : l.getLast? = some d) :
    ∀ x ∈ l, x ≤ d := by
  induction l with
  | nil => simp
  | cons a l ih =>
    rcases List.pairwise_cons.mp hp with ⟨ha, hl⟩
    intro x hx
    cases l with
    | nil =>
        simp at h
        rcases List.mem_singleton.mp hx with rfl
        omega
    | cons b l2 =>
        rw [List.getLast?_cons_cons] at h
        rcases List.mem_cons.mp hx with rfl | hx2
        · exact ha d (getLast?_mem_of_eq_some _ d h)
        · exact ih hl h x hx2

/-! ### Characterisation of the DAYS_REST walk -/

/-- Over a key-sorted frame with per-player distinct dates, the DAYS_REST
value of a row is 0 when the player has no strictly earlier-dated record,
and otherwise the gap to the most recent strictly earlier-dated record. -/
theorem drAssign_spec (rest : List DRow) :
    ∀ seen : List DRow,
    (seen ++ rest).Pairwise (fun a b => dr_le a b = true) →
    (seen ++ rest).Pairwise
      (fun a b => a.playerId = b.playerId → a.gameDate ≠ b.gameDate) →
    ∀ (r : DRow) (v : Int),
    (r, v) ∈ drAssign (fun x => x.playerId) (fun x => x.gameDate) seen rest →
    (((¬ ∃ q ∈ seen ++ rest, q.playerId = r.playerId ∧ q.gameDate < r.gameDate) →
        v = 0) ∧
      (∀ q ∈ seen ++ rest, q.playerId = r.playerId → q.gameDate < r.gameDate →
        (∀ p ∈ seen ++ rest, p.playerId = r.playerId → p.gameDate < r.gameDate →
          p.gameDate ≤ q.gameDate) →
        v = r.gameDate - q.gameDate)) := by
  induction rest with
  | nil =>
    intro seen _ _ r v hmem
    simp [drAssign] at hmem
  | cons r0 rest ih =>
    intro seen hs hd r v hmem
    unfold drAssign at hmem
    rcases List.mem_cons.mp hmem with heq | htail
    · rw [Prod.mk.injEq] at heq
      obtain ⟨rfl, rfl⟩ := heq
      rcases List.pairwise_append.mp hs with ⟨hsSeen, hsRest, hsCross⟩
      rcases List.pairwise_append.mp hd with ⟨_, hdRest, hdCross⟩
      have hr0mem : r ∈ r :: rest := List.mem_cons_self r rest
      have hF1 : ∀ q ∈ seen.filter (fun q => q.playerId == r.playerId),
          q.playerId = r.playerId ∧ q.gameDate < r.gameDate := by
        intro q hq
        rcases List.mem_filter.mp hq with ⟨hqseen, hqpid⟩
        have hpid : q.playerId = r.playerId := by simpa using hqpid
        have hle : dr_le q r = true := hsCross q hqseen r hr0mem
        have hne : q.gameDate ≠ r.gameDate := hdCross q hqseen r hr0mem hpid
        refine ⟨hpid, ?_⟩
        simp only [dr_le, Bool.or_eq_true, Bool.and_eq_true,
          decide_eq_true_eq, beq_iff_eq] at hle
        omega
      have hF2 : ∀ q ∈ seen ++ r :: rest, q.playerId = r.playerId →
          q.gameDate < r.gameDate →
          q ∈ seen.filter (fun q => q.playerId == r.playerId) := by
        intro q hq hqpid hqdate
        rcases List.mem_append.mp hq with hqs | hqr
        · exact List.mem_filter.mpr ⟨hqs, by simpa using hqpid⟩
        · rcases List.mem_cons.mp hqr with rfl | hqrest
          · omega
          · have hle : dr_le r q = true :=
              (List.pairwise_cons.mp hsRest).1 q hqrest
            simp only [dr_le, Bool.or_eq_true, Bool.and_eq_true,
              decide_eq_true_eq, beq_iff_eq] at hle
            omega
      have hF3 : ((seen.filter (fun q => q.playerId == r.playerId)).map
          (fun q => q.gameDate)).Pairwise (fun a b => a ≤ b) := by
        rw [List.pairwise_map]
        refine List.Pairwise.imp_of_mem ?_ (hsSeen.filter _)
        intro a b ha hb hab
        have hap := (hF1 a ha).1
        have hbp := (hF1 b hb).1
        simp only [dr_le, Bool.or_eq_true, Bool.and_eq_true,
          decide_eq_true_eq, beq_iff_eq] at hab
        omega
      rcases hlast : ((seen.filter (fun q => q.playerId == r.playerId)).map
          (fun q => q.gameDate)).getLast? with _ | d
      · have hval : ((shiftDateOf (fun x => x.playerId) (fun x => x.gameDate)
            seen r).map (fun d => r.gameDate - d)).getD 0 = 0 := by
          simp [shiftDateOf, hlast]
        constructor
        · intro _
          exact hval
        · intro q hq hqpid hqdate _
          exfalso
          have hqF := hF2 q hq hqpid hqdate
          have hemp : (seen.filter (fun q => q.playerId == r.playerId)).map
              (fun q => q.gameDate) = [] := List.getLast?_eq_none_iff.mp hlast
          have : seen.filter (fun q => q.playerId == r.playerId) = [] :=
            List.map_eq_nil_iff.mp hemp
          rw [this] at hqF
          exact List.not_mem_nil q hqF
      · have hval : ((shiftDateOf (fun x => x.playerId) (fun x => x.gameDate)
            seen r).map (fun d => r.gameDate - d)).getD 0 = r.gameDate - d := by
          simp [shiftDateOf, hlast]
        have hdmem : d ∈ (seen.filter (fun q => q.playerId == r.playerId)).map
            (fun q => q.gameDate) := getLast?_mem_of_eq_some _ d hlast
        rcases List.mem_map.mp hdmem with ⟨ql, hqlF, hqld⟩
        have hql := hF1 ql hqlF
        constructor
        · intro hne
          exfalso
          exact hne ⟨ql, List.mem_append.mpr (Or.inl
            (List.mem_filter.mp hqlF).1), hql.1, hql.2⟩
        · intro q hq hqpid hqdate hmax
          have hqF := hF2 q hq hqpid hqdate
          have hub : q.gameDate ≤ d := by
            refine le_getLast?_of_pairwise _ d hF3 hlast q.gameDate ?_
            exact List.mem_map.mpr ⟨q, hqF, rfl⟩
          have hlb : d ≤ q.gameDate := by
            rw [← hqld]
            exact hmax ql (List.mem_append.mpr (Or.inl
              (List.mem_filter.mp hqlF).1)) hql.1 hql.2
          rw [hval]
          omega
    · rw [List.append_cons] at hs hd
      have hres := ih (seen ++ [r0]) hs hd r v htail
      rw [← List.append_cons] at hres
      exact hres

/-! ### Claim C4 (days_rest) -/

/-- C4, counterexample: a single-record history.  The claim requires the
"unknown" sentinel for an entity's first appearance, and indeed before
`fillna` the pipeline's raw value is `NaN` (`none`); but the function's
actual output is the integer 0 — `.fillna(0).astype(int)` turns the sentinel
into an ordinary number indistinguishable from a same-day back-to-back. -/
theorem claim4_counterexample :
    add_days_rest [⟨1, 100⟩] = [(⟨1, 100⟩, 0)] ∧
    add_days_rest_raw [⟨1, 100⟩] = [(⟨1, 100⟩, none)] := ⟨rfl, rfl⟩

/-- C4, amended: provided each entity's dates are distinct (the data-model
invariant), the DAYS_REST value of a row equals the number of days between
its date and the entity's most recent strictly earlier date — but for an
entity's **first appearance the value is the number 0**, not an "unknown"
sentinel (the source fills the missing difference with 0). -/
theorem claim4_amended (rows : List DRow)
    (hdist : rows.Pairwise
      (fun a b => a.playerId = b.playerId → a.gameDate ≠ b.gameDate))
    (r : DRow) (v : Int) (hmem : (r, v) ∈ add_days_rest rows) :
    ((¬ ∃ q ∈ rows, q.playerId = r.playerId ∧ q.gameDate < r.gameDate) →
      v = 0) ∧
    (∀ q ∈ rows, q.playerId = r.playerId → q.gameDate < r.gameDate →
      (∀ p ∈ rows, p.playerId = r.playerId → p.gameDate < r.gameDate →
        p.gameDate ≤ q.gameDate) →
      v = r.gameDate - q.gameDate) := by
  have hperm : (sortLe dr_le rows).Perm rows := sortLe_perm dr_le rows
  have hs : (sortLe dr_le rows).Pairwise (fun a b => dr_le a b = true) :=
    sortLe_pairwise dr_le dr_le_total dr_le_trans rows
  have hsym : ∀ {x y : DRow},
      (x.playerId = y.playerId → x.gameDate ≠ y.gameDate) →
      (y.playerId = x.playerId → y.gameDate ≠ x.gameDate) :=
    fun hab hpid => (hab hpid.symm).symm
  have hd : (sortLe dr_le rows).Pairwise
      (fun a b => a.playerId = b.playerId → a.gameDate ≠ b.gameDate) :=
    (hperm.pairwise_iff hsym).mpr hdist
  have h0 := drAssign_spec (sortLe dr_le rows) [] (by simpa using hs)
    (by simpa using hd) r v (by simpa [add_days_rest] using hmem)
  simp only [List.nil_append] at h0
  rcases h0 with ⟨h1, h2⟩
  constructor
  · intro hne
    apply h1
    rintro ⟨q, hq, hqp, hqd⟩
    exact hne ⟨q, hperm.mem_iff.mp hq, hqp, hqd⟩
  · intro q hq hqp hqd hmax
    exact h2 q (hperm.mem_iff.mpr hq) hqp hqd
      (fun p hp hpp hpd => hmax p (hperm.mem_iff.mp hp) hpp hpd)

/-- The two-game history used to witness the amended claim C4. -/
def c4WitTab : List DRow := [⟨1, 100⟩, ⟨1, 103⟩]

/-- C4, witness for the amended theorem: player 1 played on days 100 and
103; the row dated 103 carries DAYS_REST 3 = 103 − 100. -/
theorem claim4_witness :
    ((¬ ∃ q ∈ c4WitTab, q.playerId = (⟨1, 103⟩ : DRow).playerId ∧
        q.gameDate < (⟨1, 103⟩ : DRow).gameDate) → (3 : Int) = 0) ∧
    (∀ q ∈ c4WitTab, q.playerId = (⟨1, 103⟩ : DRow).playerId →
      q.gameDate < (⟨1, 103⟩ : DRow).gameDate →
      (∀ p ∈ c4WitTab, p.playerId = (⟨1, 103⟩ : DRow).playerId →
        p.gameDate < (⟨1, 103⟩ : DRow).gameDate → p.gameDate ≤ q.gameDate) →
      (3 : Int) = (⟨1, 103⟩ : DRow).gameDate - q.gameDate) :=
  claim4_amended c4WitTab (by decide) ⟨1, 103⟩ 3 (by decide)

/-! ## Latest-player selection (predict_today.get_latest_player_data)

```
PREDICTION_DATE = datetime(2025, 3, 10).date()
cutoff_date = PREDICTION_DATE - timedelta(days=30)
recent_df = df[df['GAME_DATE'] >= cutoff_date]
latest_data = recent_df.loc[recent_df.groupby('PLAYER_ID')['GAME_DATE'].idxmax()]
```
Dates are embedded as day counts since 1970-01-01; `idxmax` returns the
label of the **first** occurrence of the group maximum; `groupby` emits the
group keys in ascending order. -/

/-- Day count of a Gregorian calendar date since 1970-01-01 (the arithmetic
`datetime.date` / pandas timestamps implement). -/
def daysFromCivil (y m d : Nat) : Int :=
  let yy := if m ≤ 2 then y - 1 else y
  let era := yy / 400
  let yoe := yy - era * 400
  let mp := (m + 9) % 12
  let doy := (153 * mp + 2) / 5 + (d - 1)
  let doe := yoe * 365 + yoe / 4 - yoe / 100 + doy
  (era * 146097 + doe : Int) - 719468

/-- The module-level hardcoded prediction date, `datetime(2025, 3, 10)`. -/
def PREDICTION_DATE : Int := daysFromCivil 2025 3 10

/-- `PREDICTION_DATE - timedelta(days=30)`. -/
def cutoff_date : Int := PREDICTION_DATE - 30

/-- One row of the features frame as consumed by
`get_latest_player_data`. -/
structure GRow where
  playerId : Nat
  gameDate : Int
deriving DecidableEq, Repr

/-- `df[df['GAME_DATE'] >= cutoff_date]`. -/
def recentRows (rows : List GRow) : List GRow :=
  rows.filter (fun r => decide (cutoff_date ≤ r.gameDate))

/-- All rows of one player, in frame order. -/
def entityRows (rows : List GRow) (pid : Nat) : List GRow :=
  rows.filter (fun r => r.playerId == pid)

/-- `idxmax` over one group series: the first row attaining the maximal
date (`none` for an empty group). -/
def firstMax : List GRow → Option GRow
  | [] => none
  | r :: l =>
      match firstMax l with
      | none => some r
      | some m => if r.gameDate < m.gameDate then some m else some r

/-- The distinct player ids of a frame, in the ascending order `groupby`
produces them. -/
def sortedPids (rows : List GRow) : List Nat :=
  sortLe (fun a b => decide (a ≤ b)) ((rows.map (fun r => r.playerId)).dedup)

/-- `predict_today.get_latest_player_data(df)`: per player appearing in the
last 30 days before the prediction date, the first row attaining that
player's maximal game date. -/
def get_latest_player_data (rows : List GRow) : List GRow :=
  (sortedPids (recentRows rows)).filterMap
    (fun pid => firstMax (entityRows (recentRows rows) pid))

/-! ### firstMax characterisation -/

theorem firstMax_eq_none_iff (l : List GRow) : firstMax l = none ↔ l = [] := by
  cases l with
  | nil => simp [firstMax]
  | cons a l =>
    simp only [firstMax]
    cases hfm : firstMax l with
    | none => simp
    | some m => by_cases h : a.gameDate < m.gameDate <;> simp [h]

/-- `firstMax` returns the first row attaining the maximal date: all rows
before it are strictly smaller, all rows after it no larger. -/
theorem firstMax_decomp (l : List GRow) (r : GRow) (h : firstMax l = some r) :
    ∃ l1 l2, l = l1 ++ r :: l2 ∧ (∀ q ∈ l1, q.gameDate < r.gameDate) ∧
      (∀ q ∈ l2, q.gameDate ≤ r.gameDate) := by
  induction l generalizing r with
  | nil => simp [firstMax] at h
  | cons a l ih =>
    unfold firstMax at h
    cases hfm : firstMax l with
    | none =>
        rw [hfm] at h
        have h2 : some a = some r := h
        injection h2 with h1
        subst h1
        have hl : l = [] := (firstMax_eq_none_iff l).mp hfm
        subst hl
        exact ⟨[], [], rfl, by simp, by simp⟩
    | some m =>
        rw [hfm] at h
        have h2 : (if a.gameDate < m.gameDate then some m else some a) = some r := h
        rcases ih m hfm with ⟨l1, l2, hdec, hlt, hle⟩
        by_cases hcmp : a.gameDate < m.gameDate
        · rw [if_pos hcmp] at h2
          injection h2 with h1
          subst h1
          refine ⟨a :: l1, l2, by rw [hdec]; rfl, ?_, hle⟩
          intro q hq
          rcases List.mem_cons.mp hq with rfl | hq2
          · exact hcmp
          · exact hlt q hq2
        · rw [if_neg hcmp] at h2
          injection h2 with h1
          subst h1
          push_neg at hcmp
          refine ⟨[], l, rfl, by simp, ?_⟩
          intro q hq
          rw [hdec] at hq
          rcases List.mem_append.mp hq with hq1 | hq2
          · exact le_trans (le_of_lt (hlt q hq1)) hcmp
          · rcases List.mem_cons.mp hq2 with rfl | hq3
            · exact hcmp
            · exact le_trans (hle q hq3) hcmp

theorem firstMax_mem (l : List GRow) (r : GRow) (h : firstMax l = some r) :
    r ∈ l := by
  rcases firstMax_decomp l r h with ⟨l1, l2, hdec, _, _⟩
  rw [hdec]
  exact List.mem_append.mpr (Or.inr (List.mem_cons_self r l2))

/-! ### Filter splitting -/

theorem filter_split_append (p : α → Bool) (l : List α) :
    ∀ L1 L2, l.filter p = L1 ++ L2 →
    ∃ l1 l2, l = l1 ++ l2 ∧ l1.filter p = L1 ∧ l2.filter p = L2 := by
  induction l with
  | nil =>
    intro L1 L2 h
    rw [List.filter_nil] at h
    rcases List.append_eq_nil.mp h.symm with ⟨h1, h2⟩
    exact ⟨[], [], rfl, by rw [List.filter_nil, h1], by rw [List.filter_nil, h2]⟩
  | cons a l ih =>
    intro L1 L2 h
    by_cases hp : p a = true
    · rw [List.filter_cons_of_pos hp] at h
      cases L1 with
      | nil =>
          refine ⟨[], a :: l, rfl, rfl, ?_⟩
          rw [List.filter_cons_of_pos hp]
          exact h.trans (List.nil_append L2)
      | cons b L1 =>
          have hinj : a = b ∧ l.filter p = L1 ++ L2 :=
            (List.cons.injEq a (l.filter p) b (L1 ++ L2)).mp (by simpa using h)
          rcases ih L1 L2 hinj.2 with ⟨l1, l2, hl, h1, h2⟩
          refine ⟨a :: l1, l2, by rw [hl]; rfl, ?_, h2⟩
          rw [List.filter_cons_of_pos hp, h1, hinj.1]
    · have hp2 : p a = false := by simpa using hp
      rw [List.filter_cons_of_neg (by simp [hp2])] at h
      rcases ih L1 L2 h with ⟨l1, l2, hl, h1, h2⟩
      refine ⟨a :: l1, l2, by rw [hl]; rfl, ?_, h2⟩
      rw [List.filter_cons_of_neg (by simp [hp2]), h1]

theorem filter_split_cons (p : α → Bool) :
    ∀ (l : List α) (r : α) (L : List α), l.filter p = r :: L →
    ∃ l1 l2, l = l1 ++ r :: l2 ∧ (∀ q ∈ l1, p q = false) ∧
      p r = true ∧ l2.filter p = L := by
  intro l
  induction l with
  | nil =>
    intro r L h
    rw [List.filter_nil] at h
    exact absurd h (by simp)
  | cons a l ih =>
    intro r L h
    by_cases hp : p a = true
    · rw [List.filter_cons_of_pos hp] at h
      have hinj : a = r ∧ l.filter p = L :=
        (List.cons.injEq a (l.filter p) r L).mp h
      obtain ⟨rfl, hL⟩ := hinj
      exact ⟨[], l, rfl, by simp, hp, hL⟩
    · have hp2 : p a = false := by simpa using hp
      rw [List.filter_cons_of_neg (by simp [hp2])] at h
      rcases ih r L h with ⟨l1, l2, hl, h1, h2, h3⟩
      refine ⟨a :: l1, l2, by rw [hl]; rfl, ?_, h2, h3⟩
      intro q hq
      rcases List.mem_cons.mp hq with rfl | hq2
      · exact hp2
      · exact h1 q hq2

/-! ### Claim C9 (implicit 30-day recency filter) -/

theorem entityRows_recent_comm (rows : List GRow) (pid : Nat) :
    entityRows (recentRows rows) pid = recentRows (entityRows rows pid) := by
  unfold entityRows recentRows
  rw [List.filter_filter, List.filter_filter]
  apply List.filter_congr
  intro a _
  rw [Bool.and_comm]

/-- What `get_latest_player_data` selects for one player: a row of that
player, dated inside the 30-day window, that is the **first** row attaining
the maximal date among all of the player's rows in the frame. -/
theorem latest_decomp (rows : List GRow) (pid : Nat) (r : GRow)
    (h : firstMax (entityRows (recentRows rows) pid) = some r) :
    r.playerId = pid ∧ cutoff_date ≤ r.gameDate ∧
    ∃ l1 l2, entityRows rows pid = l1 ++ r :: l2 ∧
      (∀ q ∈ l1, q.gameDate < r.gameDate) ∧
      (∀ q ∈ l2, q.gameDate ≤ r.gameDate) := by
  have hmem := firstMax_mem _ r h
  have hpid : r.playerId = pid := by
    have := (List.mem_filter.mp hmem).2
    simpa using this
  have hrec : cutoff_date ≤ r.gameDate := by
    have hm2 : r ∈ recentRows rows := (List.mem_filter.mp hmem).1
    have := (List.mem_filter.mp hm2).2
    simpa using this
  rcases firstMax_decomp _ r h with ⟨f1, f2, hdec, hstrict, hle⟩
  rw [entityRows_recent_comm] at hdec
  unfold recentRows at hdec
  rcases filter_split_append _ _ f1 (r :: f2) hdec with ⟨e1, e2, hE, he1, he2⟩
  rcases filter_split_cons _ e2 r f2 he2 with ⟨e21, e22, hE2, he21, _, he22⟩
  refine ⟨hpid, hrec, e1 ++ e21, e22, ?_, ?_, ?_⟩
  · rw [hE, hE2, List.append_assoc]
  · intro q hq
    rcases List.mem_append.mp hq with hq1 | hq2
    · by_cases hp : decide (cutoff_date ≤ q.gameDate) = true
      · have hqf : q ∈ f1 := by
          rw [← he1]
          exact List.mem_filter.mpr ⟨hq1, hp⟩
        exact hstrict q hqf
      · simp only [decide_eq_true_eq] at hp
        omega
    · have hfalse := he21 q hq2
      have hnl : ¬ cutoff_date ≤ q.gameDate := by
        simpa [decide_eq_false_iff_not] using hfalse
      omega
  · intro q hq
    by_cases hp : decide (cutoff_date ≤ q.gameDate) = true
    · have hqf : q ∈ f2 := by
        rw [← he22]
        exact List.mem_filter.mpr ⟨hq, hp⟩
      exact hle q hqf
    · simp only [decide_eq_true_eq] at hp
      omega

theorem countP_filterMap_le (f : Nat → Option GRow) (pid : Nat)
    (hf : ∀ g r, f g = some r → r.playerId = g) :
    ∀ pids : List Nat,
      (pids.filterMap f).countP (fun r => r.playerId == pid) ≤
        pids.count pid := by
  intro pids
  induction pids with
  | nil => simp
  | cons g rest ih =>
    rw [List.filterMap_cons]
    cases hg : f g with
    | none =>
        have hc : rest.count pid ≤ (g :: rest).count pid := by
          rw [List.count_cons]
          split <;> omega
        exact le_trans ih hc
    | some r =>
        rw [List.countP_cons, List.count_cons]
        have hr := hf g r hg
        by_cases hgp : g = pid
        · have h1 : (r.playerId == pid) = true := by
            rw [hr, hgp]
            simp
          have h2 : (g == pid) = true := by
            rw [hgp]
            simp
          simp only [h1, h2, if_true]
          omega
        · have h1 : (r.playerId == pid) = false := by
            rw [hr]
            exact beq_eq_false_iff_ne.mpr hgp
          have h2 : (g == pid) = false :=
            beq_eq_false_iff_ne.mpr hgp
          simp only [h1, h2, Bool.false_eq_true, if_false]
          omega

theorem sortedPids_nodup (rows : List GRow) : (sortedPids rows).Nodup := by
  unfold sortedPids
  exact ((sortLe_perm (fun a b : Nat => decide (a ≤ b))
    ((rows.map (fun r => r.playerId)).dedup)).nodup_iff).mpr
    (List.nodup_dedup _)

/-- C9: `get_latest_player_data` keeps at most one row per player; a kept
row for player `pid` is dated on or after `PREDICTION_DATE − 30` and is the
first row attaining the maximum date among **all** of `pid`'s rows (strictly
later than every earlier row of `pid`, no earlier than every later one); and
a player appears in the output iff it has some row dated on or after the
cutoff — players whose latest appearance is older are silently dropped. -/
theorem claim9_latest (rows : List GRow) (pid : Nat) :
    (get_latest_player_data rows).countP (fun r => r.playerId == pid) ≤ 1 ∧
    (∀ r ∈ get_latest_player_data rows, r.playerId = pid →
      cutoff_date ≤ r.gameDate ∧
      ∃ l1 l2, entityRows rows pid = l1 ++ r :: l2 ∧
        (∀ q ∈ l1, q.gameDate < r.gameDate) ∧
        (∀ q ∈ l2, q.gameDate ≤ r.gameDate)) ∧
    ((∃ q ∈ entityRows rows pid, cutoff_date ≤ q.gameDate) ↔
      ∃ r ∈ get_latest_player_data rows, r.playerId = pid) := by
  have hcount : (get_latest_player_data rows).countP
      (fun r => r.playerId == pid) ≤ 1 := by
    unfold get_latest_player_data
    refine le_trans (countP_filterMap_le
      (fun g => firstMax (entityRows (recentRows rows) g)) pid
      (fun g r hg => (latest_decomp rows g r hg).1)
      (sortedPids (recentRows rows))) ?_
    exact List.nodup_iff_count_le_one.mp (sortedPids_nodup (recentRows rows)) pid
  refine ⟨hcount, ?_, ?_⟩
  · intro r hr hrpid
    rcases List.mem_filterMap.mp hr with ⟨g, _, hg⟩
    have hd := latest_decomp rows g r hg
    have hgp : g = pid := by rw [← hrpid, hd.1]
    subst hgp
    exact ⟨hd.2.1, hd.2.2⟩
  · constructor
    · rintro ⟨q, hq, hqrec⟩
      have hqpid : q.playerId = pid := by
        simpa using (List.mem_filter.mp hq).2
      have hqrows : q ∈ rows := (List.mem_filter.mp hq).1
      have hqrecent : q ∈ recentRows rows :=
        List.mem_filter.mpr ⟨hqrows, by simpa using hqrec⟩
      have hqE : q ∈ entityRows (recentRows rows) pid :=
        List.mem_filter.mpr ⟨hqrecent, by simpa using hqpid⟩
      rcases hfm : firstMax (entityRows (recentRows rows) pid) with _ | r
      · have hnil := (firstMax_eq_none_iff _).mp hfm
        rw [hnil] at hqE
        exact absurd hqE (List.not_mem_nil q)
      · have hpidmem : pid ∈ sortedPids (recentRows rows) := by
          unfold sortedPids
          have hmm : pid ∈ (recentRows rows).map (fun r => r.playerId) :=
            List.mem_map.mpr ⟨q, hqrecent, hqpid⟩
          exact (sortLe_perm _ _).mem_iff.mpr (List.mem_dedup.mpr hmm)
        refine ⟨r, ?_, (latest_decomp rows pid r hfm).1⟩
        unfold get_latest_player_data
        exact List.mem_filterMap.mpr ⟨pid, hpidmem, hfm⟩
    · rintro ⟨r, hr, hrpid⟩
      rcases List.mem_filterMap.mp hr with ⟨g, _, hg⟩
      have hd := latest_decomp rows g r hg
      have hgp : g = pid := by rw [← hrpid, hd.1]
      subst hgp
      refine ⟨r, ?_, hd.2.1⟩
      rcases hd.2.2 with ⟨l1, l2, hdec, _, _⟩
      rw [hdec]
      exact List.mem_append.mpr (Or.inr (List.mem_cons_self _ _))

/-- The features frame used to witness claim C9: player 1 appeared on days
20150 and 20152 (inside the 30-day window before day 20157 = 2025-03-10),
player 2 last appeared on day 20000, before the window. -/
def c9Tab : List GRow := [⟨1, 20150⟩, ⟨1, 20152⟩, ⟨2, 20000⟩]

/-- C9, witness: on `c9Tab` the output has at most one row for player 1,
does contain player 1, and silently drops player 2. -/
theorem claim9_witness :
    (get_latest_player_data c9Tab).countP (fun r => r.playerId == 1) ≤ 1 ∧
    (∃ r ∈ get_latest_player_data c9Tab, r.playerId = 1) ∧
    ¬ ∃ r ∈ get_latest_player_data c9Tab, r.playerId = 2 := by
  refine ⟨(claim9_latest c9Tab 1).1, ?_, ?_⟩
  · exact (claim9_latest c9Tab 1).2.2.mp ⟨⟨1, 20152⟩, by decide, by decide⟩
  · intro hex
    exact absurd ((claim9_latest c9Tab 2).2.2.mpr hex) (by decide)

/-! ## Non-mutation of the caller's history (claims C8)

In-place pandas mutation is modelled by an explicit heap of tables: Python
variables are heap addresses, `df.copy()` allocates a fresh address holding
the same value, and `df[col] = ...` writes through the variable's address.
`make_features` copies both arguments before mutating
(`df = latest_rows.copy(); rolls = full_history.copy()`), and
`engineer_features` copies its argument (`pred_df = df.copy()`); all column
assignments then go to the fresh addresses. -/

/-- One row of the full history frame as consumed by `make_features`,
carrying its pandas index label and the feature columns added so far
(`none` = NaN). -/
structure FRow where
  idx : Nat
  playerId : Nat
  gameDate : Int
  matchup : List Char
  fantasyPoints : ℚ
  minutes : ℚ
  feats : List (List Char × Option ℚ)
deriving DecidableEq, Repr

/-- A heap of tables; addresses are list positions. -/
def heapGet (h : List (List β)) (a : Nat) : List β := h.getD a []

def heapSet (h : List (List β)) (a : Nat) (t : List β) : List (List β) :=
  h.set a t

/-- Append one feature column (one value per row) to a frame. -/
def addFeatCol (name : List Char) (vals : List (Option ℚ)) (t : List FRow) :
    List FRow :=
  (t.zip vals).map (fun rv => { rv.1 with feats := rv.1.feats ++ [(name, rv.2)] })

/-- `add_rolling_features(df, col)` at table level: one rolling-mean column
per window in `(3, 5, 10)`, named by column and window. -/
def t_add_rolling (col : List Char) (val : FRow → ℚ) (t : List FRow) :
    List FRow :=
  [3, 5, 10].foldl
    (fun acc w =>
      addFeatCol (col ++ "_rolling".toList ++ Nat.toDigits 10 w)
        (rollingTransform w (fun r => r.playerId) val acc) acc)
    t

/-- `add_home_away_flag(df)` at table level. -/
def t_add_home (t : List FRow) : List FRow :=
  addFeatCol "IS_HOME".toList
    (t.map (fun r => some (if is_home r.matchup then 1 else 0))) t

/-- The `sort_values(["PLAYER_ID", "GAME_DATE"])` key on history rows. -/
def fr_le (a b : FRow) : Bool :=
  decide (a.playerId < b.playerId) ||
    (a.playerId == b.playerId && decide (a.gameDate ≤ b.gameDate))

/-- `add_days_rest(df)` at table level: the (new) sorted frame with its
DAYS_REST column appended. -/
def t_add_days_rest (t : List FRow) : List FRow :=
  (drAssign (fun r => r.playerId) (fun r => r.gameDate) [] (sortLe fr_le t)).map
    (fun rv =>
      { rv.1 with feats := rv.1.feats ++ [("DAYS_REST".toList, some (rv.2 : ℚ))] })

/-- `featurizer.make_features(latest_rows, full_history)` under the heap
model.  `aL`, `aH` are the caller's table addresses; the result is the final
heap together with the returned feature matrix (the feature columns of the
rows of `rolls` selected by `latest_rows`' index labels). -/
def make_features (hasMin : Bool) (h : List (List FRow)) (aL aH : Nat) :
    List (List FRow) × List (List (List Char × Option ℚ)) :=
  let dfIdx := (heapGet h aL).map (fun r => r.idx)
  let h1 := h ++ [heapGet h aL]
  let h2 := h1 ++ [heapGet h1 aH]
  let aR := h1.length
  let h3 := heapSet h2 aR
    (t_add_rolling "fantasy_points".toList (fun r => r.fantasyPoints)
      (heapGet h2 aR))
  let h4 := if hasMin then
      heapSet h3 aR (t_add_rolling "MIN".toList (fun r => r.minutes)
        (heapGet h3 aR))
    else h3
  let h5 := heapSet h4 aR (t_add_home (heapGet h4 aR))
  let h6 := heapSet h5 aR (heapGet h5 aR)
  let h7 := h6 ++ [t_add_days_rest (heapGet h6 aR)]
  let aR2 := h6.length
  let res := (dfIdx.filterMap
    (fun i => (heapGet h7 aR2).find? (fun r => r.idx == i))).map
    (fun r => r.feats)
  (h7, res)

/-- One row of the serving-time features frame consumed by
`engineer_features`. -/
structure ERow where
  playerId : Nat
  lastGameDate : Int
  feats : List (List Char × Option ℚ)
deriving DecidableEq, Repr

/-- Append one feature column to a serving-time frame. -/
def e_add_col (name : List Char) (vals : List (Option ℚ)) (t : List ERow) :
    List ERow :=
  (t.zip vals).map (fun rv => { rv.1 with feats := rv.1.feats ++ [(name, rv.2)] })

/-- Column-`j` mean over the defined entries of a feature matrix
(`X_pred.mean()`). -/
def colMeanAt (rowsF : List (List (List Char × Option ℚ))) (j : Nat) :
    Option ℚ :=
  meanOpt (rowsF.filterMap (fun f => (f.getD j (([] : List Char), none)).2))

/-- `X_pred.fillna(X_pred.mean())`: missing entries replaced by their
column's mean over the current candidate set. -/
def fillMeanX (rowsF : List (List (List Char × Option ℚ))) :
    List (List (List Char × Option ℚ)) :=
  rowsF.map (fun f => f.enum.map (fun jc =>
    (jc.2.1,
      match jc.2.2 with
      | some v => some v
      | none => colMeanAt rowsF jc.1)))

/-- `predict_today.engineer_features(df)` under the heap model: copy the
frame at `a`, assign the PRED_GAME_DATE, DAYS_REST, IS_HOME (seeded random
flags), LAST_GAME_DAYOFWEEK and LAST_GAME_MONTH columns on the copy, then
build the mean-imputed feature matrix.  The day-of-week and month
extractions are pure functions of LAST_GAME_DATE, passed as parameters;
returns the final heap, the address of `pred_df` and the matrix. -/
def engineer_features (randBit : Nat → Nat → Bool) (dow mon : Int → ℚ)
    (h : List (List ERow)) (a : Nat) :
    List (List ERow) × Nat × List (List (List Char × Option ℚ)) :=
  let aP := h.length
  let h1 := h ++ [heapGet h a]
  let h2 := heapSet h1 aP
    (e_add_col "PRED_GAME_DATE".toList
      ((heapGet h1 aP).map (fun _ => some (PREDICTION_DATE : ℚ)))
      (heapGet h1 aP))
  let h3 := heapSet h2 aP
    (e_add_col "DAYS_REST".toList
      ((heapGet h2 aP).map
        (fun r => some ((PREDICTION_DATE - r.lastGameDate : Int) : ℚ)))
      (heapGet h2 aP))
  let h4 := heapSet h3 aP
    (e_add_col "IS_HOME".toList
      ((List.range (heapGet h3 aP).length).map
        (fun i => some (if randBit 42 i then 1 else 0)))
      (heapGet h3 aP))
  let h5 := heapSet h4 aP
    (e_add_col "LAST_GAME_DAYOFWEEK".toList
      ((heapGet h4 aP).map (fun r => some (dow r.lastGameDate)))
      (heapGet h4 aP))
  let h6 := heapSet h5 aP
    (e_add_col "LAST_GAME_MONTH".toList
      ((heapGet h5 aP).map (fun r => some (mon r.lastGameDate)))
      (heapGet h5 aP))
  let xp := fillMeanX ((heapGet h6 aP).map (fun r => r.feats))
  (h6, aP, xp)

/-! ### Heap frame lemmas -/

theorem heapGet_append (h : List (List β)) (t : List β) (a : Nat)
    (ha : a < h.length) : heapGet (h ++ [t]) a = heapGet h a := by
  unfold heapGet
  rw [List.getD_eq_getElem?_getD, List.getD_eq_getElem?_getD,
    List.getElem?_append_left ha]

theorem heapGet_set_ne (h : List (List β)) (b : Nat) (t : List β) (a : Nat)
    (hne : a ≠ b) : heapGet (heapSet h b t) a = heapGet h a := by
  unfold heapGet heapSet
  rw [List.getD_eq_getElem?_getD, List.getD_eq_getElem?_getD,
    List.getElem?_set_ne (fun hh => hne hh.symm)]

theorem make_features_frame (hasMin : Bool) (hF : List (List FRow))
    (aL aH x : Nat) (hx : x < hF.length) :
    heapGet (make_features hasMin hF aL aH).1 x = heapGet hF x := by
  cases hasMin with
  | false =>
      simp only [make_features, Bool.false_eq_true, if_false]
      rw [heapGet_append, heapGet_set_ne, heapGet_set_ne, heapGet_set_ne,
        heapGet_append, heapGet_append]
      · exact hx
      · simp only [List.length_append, List.length_singleton]
        omega
      · simp only [heapSet, List.length_set, List.length_append,
          List.length_singleton]
        omega
      · simp only [heapSet, List.length_set, List.length_append,
          List.length_singleton]
        omega
      · simp only [heapSet, List.length_set, List.length_append,
          List.length_singleton]
        omega
      · simp only [heapSet, List.length_set, List.length_append,
          List.length_singleton]
        omega
  | true =>
      simp only [make_features, if_true]
      rw [heapGet_append, heapGet_set_ne, heapGet_set_ne, heapGet_set_ne,
        heapGet_set_ne, heapGet_append, heapGet_append]
      · exact hx
      · simp only [List.length_append, List.length_singleton]
        omega
      · simp only [heapSet, List.length_set, List.length_append,
          List.length_singleton]
        omega
      · simp only [heapSet, List.length_set, List.length_append,
          List.length_singleton]
        omega
      · simp only [heapSet, List.length_set, List.length_append,
          List.length_singleton]
        omega
      · simp only [heapSet, List.length_set, List.length_append,
          List.length_singleton]
        omega
      · simp only [heapSet, List.length_set, List.length_append,
          List.length_singleton]
        omega

theorem engineer_features_frame (randBit : Nat → Nat → Bool)
    (dow mon : Int → ℚ) (hE : List (List ERow)) (a : Nat)
    (ha : a < hE.length) :
    heapGet (engineer_features randBit dow mon hE a).1 a = heapGet hE a := by
  simp only [engineer_features]
  rw [heapGet_set_ne, heapGet_set_ne, heapGet_set_ne, heapGet_set_ne,
    heapGet_set_ne, heapGet_append]
  · exact ha
  · omega
  · omega
  · omega
  · omega
  · omega

/-- C8: the feature-engineering entry points never mutate the caller's
tables.  Under the heap model `make_features` leaves both of the caller's
frames (`latest_rows` at `aL` and `full_history` at `aH`) unchanged, and
`engineer_features` leaves its argument frame unchanged: every feature
column is written only to a freshly allocated copy. -/
theorem claim8_no_mutation (hasMin : Bool) (hF : List (List FRow))
    (aL aH : Nat) (randBit : Nat → Nat → Bool) (dow mon : Int → ℚ)
    (hE : List (List ERow)) (a : Nat)
    (hL : aL < hF.length) (hH : aH < hF.length) (ha : a < hE.length) :
    heapGet (make_features hasMin hF aL aH).1 aL = heapGet hF aL ∧
    heapGet (make_features hasMin hF aL aH).1 aH = heapGet hF aH ∧
    heapGet (engineer_features randBit dow mon hE a).1 a = heapGet hE a :=
  ⟨make_features_frame hasMin hF aL aH aL hL,
   make_features_frame hasMin hF aL aH aH hH,
   engineer_features_frame randBit dow mon hE a ha⟩

/-- C8, witness: a concrete two-table heap for `make_features` and a
one-table heap for `engineer_features`. -/
theorem claim8_witness :
    heapGet (make_features true ([[], []] : List (List FRow)) 0 1).1 0 =
      heapGet ([[], []] : List (List FRow)) 0 ∧
    heapGet (make_features true ([[], []] : List (List FRow)) 0 1).1 1 =
      heapGet ([[], []] : List (List FRow)) 1 ∧
    heapGet (engineer_features (fun _ _ => false) (fun _ => 0) (fun _ => 0)
        ([[]] : List (List ERow)) 0).1 0 =
      heapGet ([[]] : List (List ERow)) 0 :=
  claim8_no_mutation true [[], []] 0 1 (fun _ _ => false) (fun _ => 0)
    (fun _ => 0) [[]] 0 (by decide) (by decide) (by decide)

end NBA
